import Mathlib

/-!
Shallow embedding of the MPAS_PREC_AVAL precipitation-evaluation scripts.

Source files embedded here:
* scripts/common.py        : compute_spectrum, radial_mean, trim_edges
* scripts/precip_loaders.py: _hours_between, _to_mm_per_hour, load_mpas_rate
* scripts/spectral.py      : _ensure_unit_mm_per_day
* scripts/spectral_efficiency.py : radial_mean (float-midpoint-center variant)

Machine floats are modelled by real numbers; NaN (the "undefined" marker
produced by the xarray where method) is modelled by Option; python exceptions are
modelled by Except.
-/

namespace MPASPrec

noncomputable section

/-- A 2D field: shape (ny, nx) with real samples, indexed data[y][x].
Indices outside the shape carry junk values that no definition reads. -/
structure Field2 where
  ny : ℕ
  nx : ℕ
  data : ℕ → ℕ → ℝ

/-- A 3D field with a leading time axis: shape (nt, ny, nx), data[t][y][x]. -/
structure Field3 where
  nt : ℕ
  ny : ℕ
  nx : ℕ
  data : ℕ → ℕ → ℕ → ℝ

/-- The constant field of shape (ny, nx) whose every sample is c. -/
def constField2 (ny nx : ℕ) (c : ℝ) : Field2 :=
  ⟨ny, nx, fun _ _ => c⟩

/-- Mean over the leading time axis, `field.mean(axis=0)` in compute_spectrum
(scripts/common.py line 165). -/
def timeMean (f : Field3) : Field2 :=
  ⟨f.ny, f.nx, fun y x => (∑ t in Finset.range f.nt, f.data t y x) / f.nt⟩

/-! ### Spectrum engine (scripts/common.py) -/

/-- Unnormalized 2D discrete Fourier transform, `np.fft.fft2` with the default
backward norm: F[u,v] = Σ_j Σ_k f[j,k] · exp(-2πi·(u·j/ny + v·k/nx)). -/
def fft2 (f : Field2) (u v : ℕ) : ℂ :=
  ∑ j in Finset.range f.ny, ∑ k in Finset.range f.nx,
    (f.data j k : ℂ) *
      Complex.exp (-(2 * (Real.pi : ℂ) * Complex.I) *
        ((u : ℂ) * (j : ℂ) / (f.ny : ℂ) + (v : ℂ) * (k : ℂ) / (f.nx : ℂ)))

/-- Index map of `np.fft.fftshift` along an axis of length n:
output position i reads input position (i - n//2) mod n. -/
def shiftIdx (n i : ℕ) : ℕ :=
  (i + n - n / 2) % n

/-- Power spectrum of a 2D field (scripts/common.py compute_spectrum, 2D case):
squared FFT magnitude with the zero frequency moved to the array center. -/
def compute_spectrum2 (f : Field2) : Field2 :=
  ⟨f.ny, f.nx, fun y x =>
    Complex.normSq (fft2 f (shiftIdx f.ny y) (shiftIdx f.nx x))⟩

/-- A 2D-or-3D input, the two array ranks compute_spectrum accepts. -/
inductive FieldND where
  | two (f : Field2) : FieldND
  | three (g : Field3) : FieldND

/-- The 2D slice compute_spectrum actually transforms: the input itself when
2D, the time mean when 3D (scripts/common.py lines 164-165). -/
def sourceSlice : FieldND → Field2
  | .two f => f
  | .three g => timeMean g

/-- compute_spectrum (scripts/common.py lines 142-173): a 3D input is
collapsed to its time mean, then the shifted power spectrum is taken. -/
def compute_spectrum (fd : FieldND) : Field2 :=
  compute_spectrum2 (sourceSlice fd)

/-- Integer radial bin of cell (y, x) used by radial_mean in scripts/common.py
lines 198-201: the center is the integer cell (ny//2, nx//2) and
r = int(sqrt((x-cx)^2 + (y-cy)^2)); on integer offsets the truncated float
square root is exactly Nat.sqrt of the squared distance. -/
def rbin (ny nx y x : ℕ) : ℕ :=
  Nat.sqrt (Nat.dist x (nx / 2) ^ 2 + Nat.dist y (ny / 2) ^ 2)

/-- Weighted bin totals, `np.bincount(r.ravel(), power_spectrum.ravel())`:
the sum of spectrum samples whose cell falls in bin b. -/
def tbinW (rb : ℕ → ℕ → ℕ) (f : Field2) (b : ℕ) : ℝ :=
  ∑ y in Finset.range f.ny, ∑ x in Finset.range f.nx,
    if rb y x = b then f.data y x else 0

/-- Bin occupancy counts, `np.bincount(r.ravel())`. -/
def nrW (rb : ℕ → ℕ → ℕ) (f : Field2) (b : ℕ) : ℕ :=
  ∑ y in Finset.range f.ny, ∑ x in Finset.range f.nx,
    if rb y x = b then 1 else 0

/-- Largest radial bin over the grid; np.bincount allocates maxR + 1 slots. -/
def maxRW (rb : ℕ → ℕ → ℕ) (f : Field2) : ℕ :=
  Finset.sup (Finset.range f.ny) fun y =>
    Finset.sup (Finset.range f.nx) fun x => rb y x

/-- Length of the arrays np.bincount returns: 0 on an empty grid, otherwise
one more than the largest bin value present. -/
def numBinsW (rb : ℕ → ℕ → ℕ) (f : Field2) : ℕ :=
  if f.ny = 0 ∨ f.nx = 0 then 0 else maxRW rb f + 1

/-- Radial profile skeleton shared by the two radial_mean variants, which
differ only in the bin map rb: entry b is tbin[b] / max(nr[b], 1)
(scripts/common.py line 205, scripts/spectral_efficiency.py line 26). -/
def radialMeanW (rb : ℕ → ℕ → ℕ) (f : Field2) : List ℝ :=
  (List.range (numBinsW rb f)).map fun b =>
    tbinW rb f b / (max (nrW rb f b) 1 : ℕ)

/-- radial_mean of scripts/common.py (lines 176-205): integer-floor center
(ny//2, nx//2). -/
def radial_mean (f : Field2) : List ℝ :=
  radialMeanW (rbin f.ny f.nx) f

/-- Radial bin of the radial_mean variant in scripts/spectral_efficiency.py
(lines 18-27): the center is the float midpoint ((ny-1)/2, (nx-1)/2), the
float distance is truncated with astype(int), i.e. the floor on nonnegatives. -/
def rbinEff (ny nx y x : ℕ) : ℕ :=
  ⌊Real.sqrt (((x : ℝ) - ((nx : ℝ) - 1) / 2) ^ 2 +
              ((y : ℝ) - ((ny : ℝ) - 1) / 2) ^ 2)⌋₊

/-- radial_mean of scripts/spectral_efficiency.py: float-midpoint center. -/
def radial_mean_eff (f : Field2) : List ℝ :=
  radialMeanW (rbinEff f.ny f.nx) f

/-! ### Edge trimmer (scripts/common.py trim_edges) -/

/-- trim_edges (scripts/common.py lines 207-225): returns the input unchanged
when n <= 0, otherwise the slice a[n:-n, n:-n], whose cell (y, x) is input
cell (y+n, x+n) and whose shape loses 2n in each dimension (clamped at 0,
as python slicing does). -/
def trim_edges (a : Field2) (n : ℤ) : Field2 :=
  if n ≤ 0 then a
  else ⟨a.ny - 2 * n.toNat, a.nx - 2 * n.toNat,
        fun y x => a.data (y + n.toNat) (x + n.toNat)⟩

/-! ### Unit normalizer (scripts/precip_loaders.py, scripts/spectral.py) -/

/-- Normalization `units.lower().replace(" ", "")` applied by the unit
handlers: lowercase every character, then drop every space. -/
def normalizeUnits (s : String) : String :=
  String.mk ((s.data.map Char.toLower).filter fun c => !(c = ' '))

/-- The unit strings _to_mm_per_hour recognizes after normalization
(scripts/precip_loaders.py lines 94-100). -/
def recognizedMmPerHourUnits : List String :=
  ["mm/hr", "mm/h", "mm/day", "mm/d", "kgm-2s-1", "kgm^-2s^-1", "kg/m^2/s", "mm/s"]

/-- Model of _to_mm_per_hour (scripts/precip_loaders.py lines 69-102) acting on one
sample v with declared unit string `units`; a missing units attribute reaches
this function as the empty string (`attrs.get("units") or ""`). Raising
ValueError is modelled by Except.error. -/
def to_mm_per_hour (units : String) (v : ℝ) : Except String ℝ :=
  let u := normalizeUnits units
  if u = "mm/hr" ∨ u = "mm/h" then .ok v
  else if u = "mm/day" ∨ u = "mm/d" then .ok (v / 24)
  else if u = "kgm-2s-1" ∨ u = "kgm^-2s^-1" ∨ u = "kg/m^2/s" ∨ u = "mm/s" then
    .ok (v * 3600)
  else .error ("Unrecognized precip units: " ++ units)

/-- Model of _ensure_unit_mm_per_day (scripts/spectral.py lines 70-101) acting on one
sample: the legacy call site that treats an empty/missing unit as the
pipeline default mm/h and hence multiplies by 24. -/
def ensure_unit_mm_per_day (units : String) (v : ℝ) : Except String ℝ :=
  let u := normalizeUnits units
  if u = "mm/d" ∨ u = "mm/day" ∨ u = "mm_per_day" then .ok v
  else if u = "mm/h" ∨ u = "mmhr" ∨ u = "mm_per_hour" then .ok (v * 24)
  else if u = "" then .ok (v * 24)
  else .error ("Unexpected units for precipitation rate: " ++ units)

/-! ### MPAS accumulator-to-rate conversion (scripts/precip_loaders.py) -/

/-- Model of `out_unit.strip().lower()`: lowercase, then strip leading and
trailing spaces. -/
def stripLower (s : String) : String :=
  String.mk ((((s.data.map Char.toLower).dropWhile
      fun c => c = ' ').reverse.dropWhile fun c => c = ' ').reverse)

/-- Model of _hours_between (scripts/precip_loaders.py lines 48-66) at interval i:
the timedelta between consecutive stamps, in seconds, divided by 3600.
Times are modelled as seconds since an epoch. -/
def hours_between (times : ℕ → ℝ) (i : ℕ) : ℝ :=
  (times (i + 1) - times i) / 3600

/-- Summed accumulators `ds[rainc_name] + ds[rainnc_name]`
(scripts/precip_loaders.py line 228). -/
def mpasAcc (rainc rainnc : ℕ → ℕ → ℕ → ℝ) (t y x : ℕ) : ℝ :=
  rainc t y x + rainnc t y x

/-- Increment `acc.diff(tname)` at interval i (scripts/precip_loaders.py
line 231): difference of consecutive time samples. -/
def mpasIncrement (rainc rainnc : ℕ → ℕ → ℕ → ℝ) (i y x : ℕ) : ℝ :=
  mpasAcc rainc rainnc (i + 1) y x - mpasAcc rainc rainnc i y x

/-- Per-interval rate `inc / hours` in mm/h (scripts/precip_loaders.py
line 237). -/
def mpasRateH (times : ℕ → ℝ) (rainc rainnc : ℕ → ℕ → ℕ → ℝ)
    (i y x : ℕ) : ℝ :=
  mpasIncrement rainc rainnc i y x / hours_between times i

/-- Negative-increment handling `rate_h.where(rate_h >= 0)`
(scripts/precip_loaders.py lines 240-241): values failing the predicate
become NaN, modelled as none. -/
def mpasRateDropped (times : ℕ → ℝ) (rainc rainnc : ℕ → ℕ → ℕ → ℝ)
    (dropNeg : Bool) (i y x : ℕ) : Option ℝ :=
  let r := mpasRateH times rainc rainnc i y x
  if dropNeg then (if 0 ≤ r then some r else none) else some r

/-- NaN-skipping mean, xarray `.mean` with the default skipna: averages the
defined entries, all-undefined input stays undefined. -/
def nanMean (l : List (Option ℝ)) : Option ℝ :=
  let vals := l.filterMap id
  if vals.length = 0 then none else some (vals.sum / vals.length)

/-- load_mpas_rate (scripts/precip_loaders.py lines 171-253) with
time_mean=False: the length N-1 series of per-interval rates at cell (y, x),
converted to the requested output unit base. -/
def load_mpas_rate_series (times : ℕ → ℝ) (rainc rainnc : ℕ → ℕ → ℕ → ℝ)
    (outUnit : String) (dropNeg : Bool) (i y x : ℕ) :
    Except String (Option ℝ) :=
  let r := mpasRateDropped times rainc rainnc dropNeg i y x
  let u := stripLower outUnit
  if u = "mm/h" ∨ u = "mmhr" ∨ u = "mm_per_hour" then .ok r
  else if u = "mm/d" ∨ u = "mm/day" ∨ u = "mm_per_day" then
    .ok (r.map fun v => v * 24)
  else .error ("out_unit must be mm/h or mm/day.")

/-- load_mpas_rate with time_mean=True at cell (y, x): unit conversion is
applied to the per-interval series first, the NaN-skipping time mean last
(scripts/precip_loaders.py lines 243-253). -/
def load_mpas_rate_mean (nt : ℕ) (times : ℕ → ℝ)
    (rainc rainnc : ℕ → ℕ → ℕ → ℝ) (outUnit : String) (dropNeg : Bool)
    (y x : ℕ) : Except String (Option ℝ) :=
  let rates := (List.range (nt - 1)).map fun i =>
    mpasRateDropped times rainc rainnc dropNeg i y x
  let u := stripLower outUnit
  if u = "mm/h" ∨ u = "mmhr" ∨ u = "mm_per_hour" then .ok (nanMean rates)
  else if u = "mm/d" ∨ u = "mm/day" ∨ u = "mm_per_day" then
    .ok (nanMean (rates.map (Option.map fun v => v * 24)))
  else .error ("out_unit must be mm/h or mm/day.")

/-! ### Geometry of the radial bins: corner distances -/

/-- Squared Euclidean distances from the integer center (ny//2, nx//2) to the
four grid corners, and their maximum. -/
def maxCornerDistSq (ny nx : ℕ) : ℕ :=
  let cy := ny / 2
  let cx := nx / 2
  max (max (Nat.dist 0 cx ^ 2 + Nat.dist 0 cy ^ 2)
           (Nat.dist (nx - 1) cx ^ 2 + Nat.dist 0 cy ^ 2))
      (max (Nat.dist 0 cx ^ 2 + Nat.dist (ny - 1) cy ^ 2)
           (Nat.dist (nx - 1) cx ^ 2 + Nat.dist (ny - 1) cy ^ 2))

/-- Floor of the Euclidean distance from the spectrum center to the farthest
grid corner. -/
def maxRadiusFloor (ny nx : ℕ) : ℕ :=
  ⌊Real.sqrt (maxCornerDistSq ny nx : ℝ)⌋₊

/-- Closed form of the shifted power spectrum of the all-ones 4 x 4 field:
the squared DC sum 16^2 = 256 at the center cell (2, 2), zero elsewhere. -/
def onesSpectrum44 : Field2 :=
  ⟨4, 4, fun y x => if y = 2 ∧ x = 2 then 256 else 0⟩

/-! ## Theorems -/

/-! ### Radial-bin geometry -/

@[simp] lemma constField2_ny (ny nx : ℕ) (c : ℝ) : (constField2 ny nx c).ny = ny := rfl

@[simp] lemma constField2_nx (ny nx : ℕ) (c : ℝ) : (constField2 ny nx c).nx = nx := rfl

@[simp] lemma constField2_data (ny nx : ℕ) (c : ℝ) (y x : ℕ) :
    (constField2 ny nx c).data y x = c := rfl

/-- Every in-grid offset from the integer center is at most the center
coordinate itself. -/
lemma dist_center_le (n y : ℕ) (hy : y < n) : Nat.dist y (n / 2) ≤ n / 2 := by
  simp only [Nat.dist]; omega

lemma dist_zero_eq (c : ℕ) : Nat.dist 0 c = c := by
  simp [Nat.dist]

/-- Every radial bin of a cell is bounded by the bin of the (0, 0) corner. -/
lemma rbin_le_center (ny nx y x : ℕ) (hy : y < ny) (hx : x < nx) :
    rbin ny nx y x ≤ Nat.sqrt ((nx / 2) ^ 2 + (ny / 2) ^ 2) := by
  apply Nat.sqrt_le_sqrt
  exact Nat.add_le_add
    (Nat.pow_le_pow_left (dist_center_le nx x hx) 2)
    (Nat.pow_le_pow_left (dist_center_le ny y hy) 2)

lemma rbin_zero_zero (ny nx : ℕ) :
    rbin ny nx 0 0 = Nat.sqrt ((nx / 2) ^ 2 + (ny / 2) ^ 2) := by
  simp [rbin, dist_zero_eq]

/-- The largest radial bin on a nonempty grid is attained at the (0, 0)
corner. -/
lemma maxR_rbin (f : Field2) (hny : 0 < f.ny) (hnx : 0 < f.nx) :
    maxRW (rbin f.ny f.nx) f = Nat.sqrt ((f.nx / 2) ^ 2 + (f.ny / 2) ^ 2) := by
  apply le_antisymm
  · apply Finset.sup_le
    intro y hy
    apply Finset.sup_le
    intro x hx
    exact rbin_le_center _ _ _ _ (Finset.mem_range.mp hy) (Finset.mem_range.mp hx)
  · calc
      Nat.sqrt ((f.nx / 2) ^ 2 + (f.ny / 2) ^ 2) = rbin f.ny f.nx 0 0 :=
        (rbin_zero_zero f.ny f.nx).symm
      _ ≤ Finset.sup (Finset.range f.nx) fun x => rbin f.ny f.nx 0 x :=
        Finset.le_sup (Finset.mem_range.mpr hnx)
      _ ≤ maxRW (rbin f.ny f.nx) f :=
        Finset.le_sup (f := fun y => Finset.sup (Finset.range f.nx)
          fun x => rbin f.ny f.nx y x) (Finset.mem_range.mpr hny)

/-- Every bin index up to the largest one is hit by some grid cell: along the
central row for small b, and at distance cx in x with a suitable y offset
otherwise. -/
lemma rbin_surjective (ny nx b : ℕ) (hny : 0 < ny) (hnx : 0 < nx)
    (hb : b ≤ Nat.sqrt ((nx / 2) ^ 2 + (ny / 2) ^ 2)) :
    ∃ y x, y < ny ∧ x < nx ∧ rbin ny nx y x = b := by
  have hcylt : ny / 2 < ny := Nat.div_lt_self hny (by norm_num)
  have hcxlt : nx / 2 < nx := Nat.div_lt_self hnx (by norm_num)
  have hb2 : b ^ 2 ≤ (nx / 2) ^ 2 + (ny / 2) ^ 2 := Nat.le_sqrt'.mp hb
  by_cases hbx : b ≤ nx / 2
  · refine ⟨ny / 2, nx / 2 - b, hcylt, by omega, ?_⟩
    have h1 : Nat.dist (nx / 2 - b) (nx / 2) = b := by simp only [Nat.dist]; omega
    have h2 : Nat.dist (ny / 2) (ny / 2) = 0 := by simp [Nat.dist]
    rw [rbin, h1, h2]
    simpa using Nat.sqrt_eq' b
  · push_neg at hbx
    have hcxb : (nx / 2) ^ 2 < b ^ 2 := Nat.pow_lt_pow_left hbx (by norm_num)
    have hsadd : (b ^ 2 - (nx / 2) ^ 2) + (nx / 2) ^ 2 = b ^ 2 :=
      Nat.sub_add_cancel hcxb.le
    have hscy : b ^ 2 - (nx / 2) ^ 2 ≤ (ny / 2) ^ 2 := by
      rw [Nat.sub_le_iff_le_add]
      linarith
    have hd0le : Nat.sqrt (b ^ 2 - (nx / 2) ^ 2) ^ 2 ≤ b ^ 2 - (nx / 2) ^ 2 :=
      Nat.sqrt_le' _
    have hd0lt : b ^ 2 - (nx / 2) ^ 2 < (Nat.sqrt (b ^ 2 - (nx / 2) ^ 2) + 1) ^ 2 :=
      Nat.lt_succ_sqrt' _
    have hd0b : Nat.sqrt (b ^ 2 - (nx / 2) ^ 2) ≤ b := by
      calc Nat.sqrt (b ^ 2 - (nx / 2) ^ 2) ≤ Nat.sqrt (b ^ 2) :=
            Nat.sqrt_le_sqrt (Nat.sub_le _ _)
        _ = b := Nat.sqrt_eq' b
    by_cases hexact : Nat.sqrt (b ^ 2 - (nx / 2) ^ 2) ^ 2 = b ^ 2 - (nx / 2) ^ 2
    · have hdycy : Nat.sqrt (b ^ 2 - (nx / 2) ^ 2) ≤ ny / 2 := by
        calc Nat.sqrt (b ^ 2 - (nx / 2) ^ 2) ≤ Nat.sqrt ((ny / 2) ^ 2) :=
              Nat.sqrt_le_sqrt hscy
          _ = ny / 2 := Nat.sqrt_eq' _
      refine ⟨ny / 2 - Nat.sqrt (b ^ 2 - (nx / 2) ^ 2), 0, by omega, hnx, ?_⟩
      have h1 : Nat.dist 0 (nx / 2) = nx / 2 := dist_zero_eq _
      have h2 : Nat.dist (ny / 2 - Nat.sqrt (b ^ 2 - (nx / 2) ^ 2)) (ny / 2) =
          Nat.sqrt (b ^ 2 - (nx / 2) ^ 2) := by
        simp only [Nat.dist]; omega
      rw [rbin, h1, h2]
      refine (Nat.eq_sqrt'.mpr ⟨?_, ?_⟩).symm
      · rw [hexact, add_comm, hsadd]
      · calc (nx / 2) ^ 2 + Nat.sqrt (b ^ 2 - (nx / 2) ^ 2) ^ 2
            = b ^ 2 := by rw [hexact, add_comm, hsadd]
          _ < (b + 1) ^ 2 := Nat.pow_lt_pow_left (Nat.lt_succ_self b) (by norm_num)
    · have hd1 : Nat.sqrt (b ^ 2 - (nx / 2) ^ 2) ^ 2 < b ^ 2 - (nx / 2) ^ 2 :=
        lt_of_le_of_ne hd0le hexact
      have hdycy : Nat.sqrt (b ^ 2 - (nx / 2) ^ 2) + 1 ≤ ny / 2 := by
        by_contra hcon
        push_neg at hcon
        have : (ny / 2) ^ 2 ≤ Nat.sqrt (b ^ 2 - (nx / 2) ^ 2) ^ 2 :=
          Nat.pow_le_pow_left (by omega) 2
        linarith
      refine ⟨ny / 2 - (Nat.sqrt (b ^ 2 - (nx / 2) ^ 2) + 1), 0, by omega, hnx, ?_⟩
      have h1 : Nat.dist 0 (nx / 2) = nx / 2 := dist_zero_eq _
      have h2 : Nat.dist (ny / 2 - (Nat.sqrt (b ^ 2 - (nx / 2) ^ 2) + 1)) (ny / 2) =
          Nat.sqrt (b ^ 2 - (nx / 2) ^ 2) + 1 := by
        simp only [Nat.dist]; omega
      rw [rbin, h1, h2]
      refine (Nat.eq_sqrt'.mpr ⟨?_, ?_⟩).symm
      · linarith
      · have hsq : (Nat.sqrt (b ^ 2 - (nx / 2) ^ 2) + 1) ^ 2 =
            Nat.sqrt (b ^ 2 - (nx / 2) ^ 2) ^ 2 +
              2 * Nat.sqrt (b ^ 2 - (nx / 2) ^ 2) + 1 := by ring
        have hbsq : (b + 1) ^ 2 = b ^ 2 + 2 * b + 1 := by ring
        linarith

/-- On a nonempty grid, every bin below the profile length is occupied. -/
lemma nrW_pos (f : Field2) (b : ℕ) (hny : 0 < f.ny) (hnx : 0 < f.nx)
    (hb : b ≤ Nat.sqrt ((f.nx / 2) ^ 2 + (f.ny / 2) ^ 2)) :
    0 < nrW (rbin f.ny f.nx) f b := by
  obtain ⟨y0, x0, hy0, hx0, hr⟩ := rbin_surjective f.ny f.nx b hny hnx hb
  unfold nrW
  have hinner : 1 ≤ ∑ x in Finset.range f.nx,
      (if rbin f.ny f.nx y0 x = b then 1 else 0) := by
    have h := Finset.single_le_sum
      (f := fun x => if rbin f.ny f.nx y0 x = b then 1 else 0)
      (fun i _ => Nat.zero_le _) (Finset.mem_range.mpr hx0)
    simpa [hr] using h
  calc (1 : ℕ) ≤ ∑ x in Finset.range f.nx,
        (if rbin f.ny f.nx y0 x = b then 1 else 0) := hinner
    _ ≤ ∑ y in Finset.range f.ny, ∑ x in Finset.range f.nx,
        (if rbin f.ny f.nx y x = b then 1 else 0) :=
      Finset.single_le_sum
        (f := fun y => ∑ x in Finset.range f.nx,
          (if rbin f.ny f.nx y x = b then 1 else 0))
        (fun i _ => Nat.zero_le _) (Finset.mem_range.mpr hy0)

/-- On a constant field the weighted bin total is the sample value times the
bin occupancy. -/
lemma tbinW_const (rb : ℕ → ℕ → ℕ) (ny nx : ℕ) (c : ℝ) (b : ℕ) :
    tbinW rb (constField2 ny nx c) b =
      c * (nrW rb (constField2 ny nx c) b : ℝ) := by
  simp only [tbinW, nrW, constField2]
  push_cast
  rw [Finset.mul_sum]
  refine Finset.sum_congr rfl fun y _ => ?_
  rw [Finset.mul_sum]
  refine Finset.sum_congr rfl fun x _ => ?_
  split <;> simp

/-- C2: radial_mean of a spectrum that is constant everywhere is the constant
profile with that value at every bin. -/
theorem radial_mean_const (ny nx : ℕ) (c : ℝ) :
    radial_mean (constField2 ny nx c) =
      List.replicate (numBinsW (rbin ny nx) (constField2 ny nx c)) c := by
  by_cases hempty : ny = 0 ∨ nx = 0
  · simp only [radial_mean, radialMeanW, numBinsW, constField2_ny, constField2_nx,
      if_pos hempty]
    rfl
  · push_neg at hempty
    have hny : 0 < ny := Nat.pos_of_ne_zero hempty.1
    have hnx : 0 < nx := Nat.pos_of_ne_zero hempty.2
    have hmax := maxR_rbin (constField2 ny nx c) hny hnx
    simp only [constField2_ny, constField2_nx] at hmax
    rw [List.eq_replicate_iff]
    constructor
    · simp [radial_mean, radialMeanW]
    · intro r hr
      simp only [radial_mean, radialMeanW, List.mem_map, List.mem_range,
        constField2_ny, constField2_nx] at hr
      obtain ⟨b, hb, rfl⟩ := hr
      have hble : b ≤ Nat.sqrt ((nx / 2) ^ 2 + (ny / 2) ^ 2) := by
        rw [numBinsW, constField2_ny, constField2_nx, if_neg (by omega), hmax] at hb
        omega
      have hpos : 0 < nrW (rbin ny nx) (constField2 ny nx c) b := by
        have h := nrW_pos (constField2 ny nx c) b hny hnx
          (by simpa only [constField2_ny, constField2_nx] using hble)
        simpa only [constField2_ny, constField2_nx] using h
      rw [tbinW_const, max_eq_left hpos, mul_div_assoc,
        div_self (Nat.cast_ne_zero.mpr (by omega)), mul_one]

/-- The farthest corner from the integer center (ny//2, nx//2) is (0, 0). -/
lemma maxCornerDistSq_eq (ny nx : ℕ) (hny : 0 < ny) (hnx : 0 < nx) :
    maxCornerDistSq ny nx = (nx / 2) ^ 2 + (ny / 2) ^ 2 := by
  have hy : Nat.dist (ny - 1) (ny / 2) ≤ ny / 2 := by simp only [Nat.dist]; omega
  have hx : Nat.dist (nx - 1) (nx / 2) ≤ nx / 2 := by simp only [Nat.dist]; omega
  have hx2 := Nat.pow_le_pow_left hx 2
  have hy2 := Nat.pow_le_pow_left hy 2
  simp only [maxCornerDistSq, dist_zero_eq]
  rw [max_eq_left (Nat.add_le_add_right hx2 _),
    max_eq_left (max_le (Nat.add_le_add_left hy2 _) (Nat.add_le_add hx2 hy2))]

/-- C6: on a nonempty spectrum, the radial profile has length
floor(max_radius) + 1, where max_radius is the Euclidean distance from the
center cell of the spectrum to the farthest grid corner. -/
theorem radial_mean_length (f : Field2) (hny : 0 < f.ny) (hnx : 0 < f.nx) :
    (radial_mean f).length = maxRadiusFloor f.ny f.nx + 1 := by
  have h1 : (radial_mean f).length = numBinsW (rbin f.ny f.nx) f := by
    simp [radial_mean, radialMeanW]
  rw [h1, numBinsW, if_neg (by omega), maxR_rbin f hny hnx, maxRadiusFloor,
    maxCornerDistSq_eq f.ny f.nx hny hnx, Real.nat_floor_real_sqrt_eq_nat_sqrt]

/-- On odd side lengths the float midpoint (n-1)/2 coincides with the integer
center n//2, so the two bin maps agree at every cell. -/
lemma rbinEff_eq_rbin_of_odd (ny nx : ℕ) (ho : Odd ny) (he : Odd nx) (y x : ℕ) :
    rbinEff ny nx y x = rbin ny nx y x := by
  obtain ⟨m, hm⟩ := ho
  obtain ⟨k, hk⟩ := he
  have hcy : ny / 2 = m := by omega
  have hcx : nx / 2 = k := by omega
  have h1 : ((nx : ℝ) - 1) / 2 = (k : ℝ) := by subst hk; push_cast; ring
  have h2 : ((ny : ℝ) - 1) / 2 = (m : ℝ) := by subst hm; push_cast; ring
  have hd : ∀ a c : ℕ, ((a : ℝ) - (c : ℝ)) ^ 2 = ((Nat.dist a c : ℕ) : ℝ) ^ 2 := by
    intro a c
    rcases le_total a c with h | h
    · rw [Nat.dist_eq_sub_of_le h, Nat.cast_sub h]; ring
    · rw [Nat.dist_eq_sub_of_le_right h, Nat.cast_sub h]
  rw [rbinEff, rbin, h1, h2, hd x k, hd y m, hcy, hcx]
  rw [show ((Nat.dist x k : ℕ) : ℝ) ^ 2 + ((Nat.dist y m : ℕ) : ℝ) ^ 2 =
      ((Nat.dist x k ^ 2 + Nat.dist y m ^ 2 : ℕ) : ℝ) by push_cast; ring]
  exact Real.nat_floor_real_sqrt_eq_nat_sqrt

/-- C10: on a spectrum with odd side lengths, the radial_mean of
scripts/spectral_efficiency.py (float midpoint center) and the radial_mean of
scripts/common.py (integer floor center) return identical profiles. -/
theorem radial_mean_eff_eq (f : Field2) (ho : Odd f.ny) (he : Odd f.nx) :
    radial_mean_eff f = radial_mean f := by
  have h : rbinEff f.ny f.nx = rbin f.ny f.nx := by
    funext y x
    exact rbinEff_eq_rbin_of_odd f.ny f.nx ho he y x
  rw [radial_mean_eff, radial_mean, h]

/-- C10 witness: the two implementations agree on a 3 x 5 spectrum. -/
theorem radial_mean_eff_eq_witness :
    Odd (constField2 3 5 2).ny ∧ Odd (constField2 3 5 2).nx ∧
    radial_mean_eff (constField2 3 5 2) = radial_mean (constField2 3 5 2) :=
  ⟨⟨1, rfl⟩, ⟨2, rfl⟩, radial_mean_eff_eq (constField2 3 5 2) ⟨1, rfl⟩ ⟨2, rfl⟩⟩

/-- With wall-clock time increasing across interval i, dropping negative
rates is the same as dropping negative increments, and the kept rate is the
increment divided by the per-interval hours from the time axis. -/
lemma mpasRateDropped_eq (times : ℕ → ℝ) (rainc rainnc : ℕ → ℕ → ℕ → ℝ)
    (i y x : ℕ) (hpos : times i < times (i + 1)) :
    mpasRateDropped times rainc rainnc true i y x =
      if mpasIncrement rainc rainnc i y x < 0 then none
      else some (mpasIncrement rainc rainnc i y x /
        ((times (i + 1) - times i) / 3600)) := by
  have hh : 0 < hours_between times i :=
    div_pos (sub_pos.mpr hpos) (by norm_num)
  have hr : mpasRateH times rainc rainnc i y x =
      mpasIncrement rainc rainnc i y x /
        ((times (i + 1) - times i) / 3600) := rfl
  by_cases hneg : mpasIncrement rainc rainnc i y x < 0
  · have hlt : mpasRateH times rainc rainnc i y x < 0 := by
      rw [hr]
      exact div_neg_of_neg_of_pos hneg hh
    simp [mpasRateDropped, hneg, not_le.mpr hlt]
  · push_neg at hneg
    have hge : 0 ≤ mpasIncrement rainc rainnc i y x /
        ((times (i + 1) - times i) / 3600) :=
      div_nonneg hneg (div_pos (sub_pos.mpr hpos) (by norm_num)).le
    simp [mpasRateDropped, not_lt.mpr hneg, hr, hge]

/-- C3: the MPAS accumulator-to-rate conversion differences consecutive time
samples, divides each difference by the per-interval elapsed hours taken from
the time axis, and (when negative-increment dropping is on) marks negative
increments undefined before the unit conversion and before time averaging. -/
theorem load_mpas_rate_conversion (nt : ℕ) (times : ℕ → ℝ)
    (rainc rainnc : ℕ → ℕ → ℕ → ℝ) (h2 : 2 ≤ nt)
    (hmono : ∀ i, i + 1 < nt → times i < times (i + 1)) (y x : ℕ) :
    (∀ i, i + 1 < nt →
      load_mpas_rate_series times rainc rainnc ("mm/h") true i y x =
        .ok (if mpasIncrement rainc rainnc i y x < 0 then none
          else some (mpasIncrement rainc rainnc i y x /
            ((times (i + 1) - times i) / 3600)))) ∧
    (∀ i, i + 1 < nt →
      load_mpas_rate_series times rainc rainnc ("mm/day") true i y x =
        .ok (Option.map (fun v => v * 24)
          (if mpasIncrement rainc rainnc i y x < 0 then none
           else some (mpasIncrement rainc rainnc i y x /
             ((times (i + 1) - times i) / 3600))))) ∧
    load_mpas_rate_mean nt times rainc rainnc ("mm/h") true y x =
      .ok (nanMean ((List.range (nt - 1)).map fun i =>
        if mpasIncrement rainc rainnc i y x < 0 then none
        else some (mpasIncrement rainc rainnc i y x /
          ((times (i + 1) - times i) / 3600)))) := by
  refine ⟨fun i hi => ?_, fun i hi => ?_, ?_⟩
  · have hser : load_mpas_rate_series times rainc rainnc ("mm/h") true i y x =
        .ok (mpasRateDropped times rainc rainnc true i y x) := rfl
    rw [hser, mpasRateDropped_eq times rainc rainnc i y x (hmono i hi)]
  · have hser : load_mpas_rate_series times rainc rainnc ("mm/day") true i y x =
        .ok (Option.map (fun v => v * 24)
          (mpasRateDropped times rainc rainnc true i y x)) := rfl
    rw [hser, mpasRateDropped_eq times rainc rainnc i y x (hmono i hi)]
  · have hmean : load_mpas_rate_mean nt times rainc rainnc ("mm/h") true y x =
        .ok (nanMean ((List.range (nt - 1)).map fun i =>
          mpasRateDropped times rainc rainnc true i y x)) := rfl
    rw [hmean]
    congr 1
    congr 1
    refine List.map_congr_left fun i hi => ?_
    have hi2 : i + 1 < nt := by
      have := List.mem_range.mp hi
      omega
    exact mpasRateDropped_eq times rainc rainnc i y x (hmono i hi2)

/-- C3 witness: two samples one hour apart, accumulator increasing by one mm
each step, giving a 1 mm/h rate kept by the negative-increment filter. -/
theorem load_mpas_rate_conversion_witness :
    2 ≤ 2 ∧
    (∀ i : ℕ, i + 1 < 2 →
      (fun j : ℕ => 3600 * (j : ℝ)) i < (fun j : ℕ => 3600 * (j : ℝ)) (i + 1)) ∧
    ((∀ i, i + 1 < 2 →
      load_mpas_rate_series (fun j : ℕ => 3600 * (j : ℝ))
          (fun t _ _ => (t : ℝ)) (fun _ _ _ => 0) "mm/h" true i 0 0 =
        .ok (if mpasIncrement (fun t _ _ => (t : ℝ)) (fun _ _ _ => 0) i 0 0 < 0 then none
          else some (mpasIncrement (fun t _ _ => (t : ℝ)) (fun _ _ _ => 0) i 0 0 /
            ((3600 * ((i + 1 : ℕ) : ℝ) - 3600 * (i : ℝ)) / 3600)))) ∧
    (∀ i, i + 1 < 2 →
      load_mpas_rate_series (fun j : ℕ => 3600 * (j : ℝ))
          (fun t _ _ => (t : ℝ)) (fun _ _ _ => 0) "mm/day" true i 0 0 =
        .ok (Option.map (fun v => v * 24)
          (if mpasIncrement (fun t _ _ => (t : ℝ)) (fun _ _ _ => 0) i 0 0 < 0 then none
           else some (mpasIncrement (fun t _ _ => (t : ℝ)) (fun _ _ _ => 0) i 0 0 /
             ((3600 * ((i + 1 : ℕ) : ℝ) - 3600 * (i : ℝ)) / 3600))))) ∧
    load_mpas_rate_mean 2 (fun j : ℕ => 3600 * (j : ℝ))
        (fun t _ _ => (t : ℝ)) (fun _ _ _ => 0) "mm/h" true 0 0 =
      .ok (nanMean ((List.range (2 - 1)).map fun i =>
        if mpasIncrement (fun t _ _ => (t : ℝ)) (fun _ _ _ => 0) i 0 0 < 0 then none
        else some (mpasIncrement (fun t _ _ => (t : ℝ)) (fun _ _ _ => 0) i 0 0 /
          ((3600 * ((i + 1 : ℕ) : ℝ) - 3600 * (i : ℝ)) / 3600))))) :=
  ⟨le_refl 2,
   fun i _ => by push_cast; linarith [Nat.cast_nonneg (α := ℝ) i],
   load_mpas_rate_conversion 2 (fun j : ℕ => 3600 * (j : ℝ))
     (fun t _ _ => (t : ℝ)) (fun _ _ _ => 0) (le_refl 2)
     (fun i _ => by push_cast; linarith [Nat.cast_nonneg (α := ℝ) i]) 0 0⟩

/-- C6 witness: a 2 x 3 spectrum has profile length floor(sqrt 2) + 1 = 2. -/
theorem radial_mean_length_witness :
    0 < (constField2 2 3 1).ny ∧ 0 < (constField2 2 3 1).nx ∧
    (radial_mean (constField2 2 3 1)).length =
      maxRadiusFloor (constField2 2 3 1).ny (constField2 2 3 1).nx + 1 :=
  ⟨by decide, by decide,
    radial_mean_length (constField2 2 3 1) (by decide) (by decide)⟩

/-- C9: trim_edges with n = 0 is the identity: the input field is returned
unchanged. -/
theorem trim_edges_zero_eq (a : Field2) : trim_edges a 0 = a := by
  simp [trim_edges]

/-- C7: for 0 < n < min(rows, cols)/2, trim_edges returns a field of shape
(rows - 2n, cols - 2n), whose cell (y, x) is input cell (y + n, x + n),
i.e. n rows/columns are removed from every side. -/
theorem trim_edges_shape (a : Field2) (n : ℤ) (hn : 0 < n)
    (hlt : 2 * n < min (a.ny : ℤ) (a.nx : ℤ)) :
    ((trim_edges a n).ny : ℤ) = (a.ny : ℤ) - 2 * n ∧
    ((trim_edges a n).nx : ℤ) = (a.nx : ℤ) - 2 * n ∧
    ∀ y x, (trim_edges a n).data y x = a.data (y + n.toNat) (x + n.toNat) := by
  have hn' : ¬ n ≤ 0 := by omega
  rw [lt_min_iff] at hlt
  obtain ⟨hlt1, hlt2⟩ := hlt
  simp only [trim_edges, if_neg hn']
  exact ⟨by omega, by omega, fun y x => trivial⟩

/-- C7 witness: trimming 1 cell from a 5 x 7 field gives shape 3 x 5. -/
theorem trim_edges_shape_witness :
    (0 : ℤ) < 1 ∧ 2 * (1 : ℤ) < min ((constField2 5 7 0).ny : ℤ) ((constField2 5 7 0).nx : ℤ) ∧
    (((trim_edges (constField2 5 7 0) 1).ny : ℤ) = ((constField2 5 7 0).ny : ℤ) - 2 * 1 ∧
     ((trim_edges (constField2 5 7 0) 1).nx : ℤ) = ((constField2 5 7 0).nx : ℤ) - 2 * 1 ∧
     ∀ y x, (trim_edges (constField2 5 7 0) 1).data y x =
       (constField2 5 7 0).data (y + (1 : ℤ).toNat) (x + (1 : ℤ).toNat)) :=
  ⟨by decide, by decide, trim_edges_shape (constField2 5 7 0) 1 (by decide) (by decide)⟩

/-- C4: the unit normalizer to mm/h is the identity on "mm/h", divides by 24
on "mm/day", multiplies by 3600 on "kg m-2 s-1"; in particular the value 1.0
declared "kg m-2 s-1" becomes exactly 3600.0. -/
theorem to_mm_per_hour_conversions (v : ℝ) :
    to_mm_per_hour ("mm/h") v = .ok v ∧
    to_mm_per_hour ("mm/day") v = .ok (v / 24) ∧
    to_mm_per_hour ("kg m-2 s-1") v = .ok (v * 3600) ∧
    to_mm_per_hour ("kg m-2 s-1") 1 = .ok 3600 := by
  refine ⟨rfl, rfl, rfl, ?_⟩
  have h : to_mm_per_hour ("kg m-2 s-1") 1 = .ok ((1 : ℝ) * 3600) := rfl
  rw [h]; norm_num

/-- C5: a missing (empty) or unrecognized units attribute makes
_to_mm_per_hour raise (no silent default); the one exception is the legacy
call site _ensure_unit_mm_per_day, which treats an empty unit as the
pipeline default mm/h and so multiplies by 24 to reach mm/day. -/
theorem unrecognized_units_error (units : String) (v : ℝ) :
    (normalizeUnits units ∉ recognizedMmPerHourUnits →
      ∃ msg, to_mm_per_hour units v = .error msg) ∧
    ensure_unit_mm_per_day ("") v = .ok (v * 24) := by
  constructor
  · intro h
    simp only [recognizedMmPerHourUnits, List.mem_cons, List.not_mem_nil, or_false,
      not_or] at h
    obtain ⟨h1, h2, h3, h4, h5, h6, h7, h8⟩ := h
    refine ⟨"Unrecognized precip units: " ++ units, ?_⟩
    simp [to_mm_per_hour, h1, h2, h3, h4, h5, h6, h7, h8]
  · rfl

/-- C5 witness: the unrecognized unit "W/m2" errors, and the legacy empty
unit becomes times 24. -/
theorem unrecognized_units_error_witness :
    normalizeUnits ("W/m2") ∉ recognizedMmPerHourUnits ∧
    (∃ msg, to_mm_per_hour ("W/m2") 2 = .error msg) ∧
    ensure_unit_mm_per_day ("") 2 = .ok (2 * 24) :=
  ⟨by decide, (unrecognized_units_error ("W/m2") 2).1 (by decide),
    (unrecognized_units_error ("W/m2") 2).2⟩

/-! ### The spectrum of a constant field -/

/-- Sum of the n-th roots of unity driven by frequency u: the full DFT row
sum collapses to n at frequency 0 and vanishes at every other frequency. -/
lemma sum_exp_unit (n u : ℕ) (hu : u < n) :
    ∑ j in Finset.range n,
      Complex.exp (-(2 * (Real.pi : ℂ) * Complex.I) *
        ((u : ℂ) * (j : ℂ) / (n : ℂ))) =
      if u = 0 then (n : ℂ) else 0 := by
  have hn : 0 < n := lt_of_le_of_lt (Nat.zero_le u) hu
  by_cases hu0 : u = 0
  · subst hu0
    simp
  · rw [if_neg hu0]
    have hterm : ∀ j : ℕ,
        Complex.exp (-(2 * (Real.pi : ℂ) * Complex.I) *
          ((u : ℂ) * (j : ℂ) / (n : ℂ))) =
        Complex.exp (-(2 * (Real.pi : ℂ) * Complex.I) * ((u : ℂ) / (n : ℂ))) ^ j := by
      intro j
      rw [← Complex.exp_nat_mul]
      congr 1
      ring
    have hr1 : Complex.exp (-(2 * (Real.pi : ℂ) * Complex.I) *
        ((u : ℂ) / (n : ℂ))) ≠ 1 := by
      intro hcon
      rw [Complex.exp_eq_one_iff] at hcon
      obtain ⟨m, hm⟩ := hcon
      have hmval : -((u : ℂ) / (n : ℂ)) = (m : ℂ) :=
        mul_right_cancel₀ Complex.two_pi_I_ne_zero (by rw [← hm]; ring)
      have hre : -((u : ℝ) / (n : ℝ)) = (m : ℝ) := by
        have hr2 : ((-((u : ℝ) / (n : ℝ)) : ℝ) : ℂ) = (((m : ℝ)) : ℂ) := by
          push_cast
          exact hmval
        exact_mod_cast hr2
      have h1 : 0 < (u : ℝ) / (n : ℝ) :=
        div_pos (by exact_mod_cast Nat.pos_of_ne_zero hu0) (by exact_mod_cast hn)
      have h2 : (u : ℝ) / (n : ℝ) < 1 :=
        (div_lt_one (by exact_mod_cast hn)).mpr (by exact_mod_cast hu)
      have hm1 : (-1 : ℤ) < m := by
        have : (-1 : ℝ) < (m : ℝ) := by rw [← hre]; linarith
        exact_mod_cast this
      have hm2 : m < 0 := by
        have : (m : ℝ) < 0 := by rw [← hre]; linarith
        exact_mod_cast this
      omega
    have hrn : Complex.exp (-(2 * (Real.pi : ℂ) * Complex.I) *
        ((u : ℂ) / (n : ℂ))) ^ n = 1 := by
      rw [← Complex.exp_nat_mul]
      have hne : (n : ℂ) ≠ 0 := Nat.cast_ne_zero.mpr (by omega)
      have harg : (n : ℂ) * (-(2 * (Real.pi : ℂ) * Complex.I) *
          ((u : ℂ) / (n : ℂ))) = ((-(u : ℤ) : ℤ) : ℂ) * (2 * (Real.pi : ℂ) * Complex.I) := by
        push_cast
        field_simp
        ring
      rw [harg]
      exact Complex.exp_int_mul_two_pi_mul_I (-(u : ℤ))
    calc
      ∑ j in Finset.range n,
          Complex.exp (-(2 * (Real.pi : ℂ) * Complex.I) *
            ((u : ℂ) * (j : ℂ) / (n : ℂ))) =
          ∑ j in Finset.range n,
            Complex.exp (-(2 * (Real.pi : ℂ) * Complex.I) * ((u : ℂ) / (n : ℂ))) ^ j :=
        Finset.sum_congr rfl fun j _ => hterm j
      _ = (Complex.exp (-(2 * (Real.pi : ℂ) * Complex.I) * ((u : ℂ) / (n : ℂ))) ^ n - 1) /
          (Complex.exp (-(2 * (Real.pi : ℂ) * Complex.I) * ((u : ℂ) / (n : ℂ))) - 1) :=
        geom_sum_eq hr1 n
      _ = 0 := by rw [hrn, sub_self, zero_div]

/-- The DFT of a constant field factorizes into the two root-of-unity sums:
it is c·ny·nx at frequency (0, 0) and zero at every other frequency. -/
lemma fft2_const (ny nx : ℕ) (c : ℝ) (u v : ℕ) (hu : u < ny) (hv : v < nx) :
    fft2 (constField2 ny nx c) u v =
      (c : ℂ) * (if u = 0 then (ny : ℂ) else 0) * (if v = 0 then (nx : ℂ) else 0) := by
  rw [fft2]
  simp only [constField2_ny, constField2_nx, constField2_data]
  have hsplit : ∀ j k : ℕ,
      (c : ℂ) * Complex.exp (-(2 * (Real.pi : ℂ) * Complex.I) *
        ((u : ℂ) * (j : ℂ) / (ny : ℂ) + (v : ℂ) * (k : ℂ) / (nx : ℂ))) =
      (c : ℂ) * Complex.exp (-(2 * (Real.pi : ℂ) * Complex.I) *
          ((u : ℂ) * (j : ℂ) / (ny : ℂ))) *
        Complex.exp (-(2 * (Real.pi : ℂ) * Complex.I) *
          ((v : ℂ) * (k : ℂ) / (nx : ℂ))) := by
    intro j k
    rw [mul_add, Complex.exp_add, ← mul_assoc]
  calc
    ∑ j in Finset.range ny, ∑ k in Finset.range nx,
        (c : ℂ) * Complex.exp (-(2 * (Real.pi : ℂ) * Complex.I) *
          ((u : ℂ) * (j : ℂ) / (ny : ℂ) + (v : ℂ) * (k : ℂ) / (nx : ℂ))) =
        ∑ j in Finset.range ny,
          ((c : ℂ) * Complex.exp (-(2 * (Real.pi : ℂ) * Complex.I) *
              ((u : ℂ) * (j : ℂ) / (ny : ℂ))) *
            ∑ k in Finset.range nx,
              Complex.exp (-(2 * (Real.pi : ℂ) * Complex.I) *
                ((v : ℂ) * (k : ℂ) / (nx : ℂ)))) := by
      refine Finset.sum_congr rfl fun j _ => ?_
      rw [Finset.mul_sum]
      exact Finset.sum_congr rfl fun k _ => hsplit j k
    _ = (∑ j in Finset.range ny,
          (c : ℂ) * Complex.exp (-(2 * (Real.pi : ℂ) * Complex.I) *
            ((u : ℂ) * (j : ℂ) / (ny : ℂ)))) *
        ∑ k in Finset.range nx,
          Complex.exp (-(2 * (Real.pi : ℂ) * Complex.I) *
            ((v : ℂ) * (k : ℂ) / (nx : ℂ))) := by
      rw [← Finset.sum_mul]
    _ = (c : ℂ) * (∑ j in Finset.range ny,
          Complex.exp (-(2 * (Real.pi : ℂ) * Complex.I) *
            ((u : ℂ) * (j : ℂ) / (ny : ℂ)))) *
        ∑ k in Finset.range nx,
          Complex.exp (-(2 * (Real.pi : ℂ) * Complex.I) *
            ((v : ℂ) * (k : ℂ) / (nx : ℂ))) := by
      rw [← Finset.mul_sum]
    _ = (c : ℂ) * (if u = 0 then (ny : ℂ) else 0) * (if v = 0 then (nx : ℂ) else 0) := by
      rw [sum_exp_unit ny u hu, sum_exp_unit nx v hv]

lemma shiftIdx_lt (n i : ℕ) (hn : 0 < n) : shiftIdx n i < n :=
  Nat.mod_lt _ hn

/-- For an in-range index, the fftshift source index is the zero frequency
exactly at the center cell n//2. -/
lemma shiftIdx_eq_zero_iff (n i : ℕ) (hi : i < n) :
    shiftIdx n i = 0 ↔ i = n / 2 := by
  have hc : n / 2 < n := Nat.div_lt_self (by omega) (by norm_num)
  rw [shiftIdx]
  rcases le_or_lt (n / 2) i with h | h
  · have heq : i + n - n / 2 = (i - n / 2) + n := by omega
    rw [heq, Nat.add_mod_right, Nat.mod_eq_of_lt (by omega)]
    omega
  · rw [Nat.mod_eq_of_lt (by omega)]
    omega

/-- The shifted power spectrum of a constant field is (c·ny·nx)^2 at the
center cell and zero everywhere else. -/
lemma compute_spectrum2_const (ny nx : ℕ) (c : ℝ) (y x : ℕ)
    (hy : y < ny) (hx : x < nx) :
    (compute_spectrum2 (constField2 ny nx c)).data y x =
      if y = ny / 2 ∧ x = nx / 2 then (c * ny * nx) ^ 2 else 0 := by
  have hny : 0 < ny := by omega
  have hnx : 0 < nx := by omega
  have hdata : (compute_spectrum2 (constField2 ny nx c)).data y x =
      Complex.normSq (fft2 (constField2 ny nx c) (shiftIdx ny y) (shiftIdx nx x)) := rfl
  rw [hdata, fft2_const ny nx c _ _ (shiftIdx_lt ny y hny) (shiftIdx_lt nx x hnx)]
  simp only [shiftIdx_eq_zero_iff ny y hy, shiftIdx_eq_zero_iff nx x hx]
  by_cases h1 : y = ny / 2 <;> by_cases h2 : x = nx / 2 <;>
    simp [h1, h2, Complex.normSq_mul]
  ring

@[simp] lemma onesSpectrum44_ny : onesSpectrum44.ny = 4 := rfl

@[simp] lemma onesSpectrum44_nx : onesSpectrum44.nx = 4 := rfl

@[simp] lemma onesSpectrum44_data (y x : ℕ) :
    onesSpectrum44.data y x = if y = 2 ∧ x = 2 then 256 else 0 := rfl

/-- The radial profile only reads spectrum samples inside the grid, so two
fields of equal shape agreeing on the grid have equal profiles. -/
lemma radialMeanW_congr (rb : ℕ → ℕ → ℕ) (f g : Field2) (hny : f.ny = g.ny)
    (hnx : f.nx = g.nx)
    (h : ∀ y, y < g.ny → ∀ x, x < g.nx → f.data y x = g.data y x) :
    radialMeanW rb f = radialMeanW rb g := by
  obtain ⟨fny, fnx, fd⟩ := f
  obtain ⟨gny, gnx, gd⟩ := g
  simp only at hny hnx
  subst hny
  subst hnx
  simp only at h
  have ht : ∀ b, tbinW rb ⟨fny, fnx, fd⟩ b = tbinW rb ⟨fny, fnx, gd⟩ b := by
    intro b
    unfold tbinW
    refine Finset.sum_congr rfl fun y hy => Finset.sum_congr rfl fun x hx => ?_
    simp only
    rw [h y (Finset.mem_range.mp hy) x (Finset.mem_range.mp hx)]
  have hnum : numBinsW rb ⟨fny, fnx, fd⟩ = numBinsW rb ⟨fny, fnx, gd⟩ := rfl
  have hnr : ∀ b, nrW rb ⟨fny, fnx, fd⟩ b = nrW rb ⟨fny, fnx, gd⟩ b := fun _ => rfl
  simp only [radialMeanW, hnum]
  refine List.map_congr_left fun b _ => ?_
  rw [ht b, hnr b]

/-- The composed pipeline on the all-ones 4 x 4 field: the spectrum is 256 at
the center and 0 elsewhere, and its radial profile is [256, 0, 0]. -/
lemma radial_mean_ones44 :
    radial_mean (compute_spectrum2 (constField2 4 4 1)) = [256, 0, 0] := by
  have hdata : ∀ y, y < onesSpectrum44.ny → ∀ x, x < onesSpectrum44.nx →
      (compute_spectrum2 (constField2 4 4 1)).data y x = onesSpectrum44.data y x := by
    intro y hy x hx
    simp only [onesSpectrum44_ny] at hy
    simp only [onesSpectrum44_nx] at hx
    rw [compute_spectrum2_const 4 4 1 y x hy hx, onesSpectrum44_data]
    norm_num
  have hcongr := radialMeanW_congr (rbin 4 4) (compute_spectrum2 (constField2 4 4 1))
    onesSpectrum44 rfl rfl hdata
  have hstep : radial_mean (compute_spectrum2 (constField2 4 4 1)) =
      radialMeanW (rbin 4 4) (compute_spectrum2 (constField2 4 4 1)) := rfl
  rw [hstep, hcongr]
  have hmax : maxRW (rbin 4 4) onesSpectrum44 = 2 := by
    have h := maxR_rbin onesSpectrum44 (by norm_num) (by norm_num)
    simp only [onesSpectrum44_ny, onesSpectrum44_nx] at h
    rw [h]
    norm_num
  have hnum : numBinsW (rbin 4 4) onesSpectrum44 = 3 := by
    simp [numBinsW, hmax]
  have ht0 : tbinW (rbin 4 4) onesSpectrum44 0 = 256 := by
    norm_num [tbinW, Finset.sum_range_succ, rbin, Nat.dist]
  have ht1 : tbinW (rbin 4 4) onesSpectrum44 1 = 0 := by
    norm_num [tbinW, Finset.sum_range_succ, rbin, Nat.dist]
  have ht2 : tbinW (rbin 4 4) onesSpectrum44 2 = 0 := by
    norm_num [tbinW, Finset.sum_range_succ, rbin, Nat.dist]
  have hn0 : nrW (rbin 4 4) onesSpectrum44 0 = 1 := by
    norm_num [nrW, Finset.sum_range_succ, rbin, Nat.dist, -Finset.sum_boole]
  have hn1 : nrW (rbin 4 4) onesSpectrum44 1 = 8 := by
    norm_num [nrW, Finset.sum_range_succ, rbin, Nat.dist, -Finset.sum_boole]
  have hn2 : nrW (rbin 4 4) onesSpectrum44 2 = 7 := by
    norm_num [nrW, Finset.sum_range_succ, rbin, Nat.dist, -Finset.sum_boole]
  simp only [radialMeanW, hnum]
  rw [show List.range 3 = [0, 1, 2] from rfl]
  simp only [List.map_cons, List.map_nil]
  rw [ht0, ht1, ht2, hn0, hn1, hn2]
  norm_num

/-- C8: compute_spectrum returns a spectrum with the same shape as the 2D
slice being transformed (the input itself for a 2D input, its time mean for
a 3D input), and every spectrum entry is non-negative. -/
theorem compute_spectrum_shape_nonneg :
    (∀ fd : FieldND,
      (compute_spectrum fd).ny = (sourceSlice fd).ny ∧
      (compute_spectrum fd).nx = (sourceSlice fd).nx ∧
      ∀ y x, 0 ≤ (compute_spectrum fd).data y x) ∧
    (∀ f : Field2, sourceSlice (.two f) = f) ∧
    (∀ g : Field3, sourceSlice (.three g) = timeMean g) :=
  ⟨fun _ => ⟨rfl, rfl, fun _ _ => Complex.normSq_nonneg _⟩,
   fun _ => rfl, fun _ => rfl⟩

/-- C1 counterexample: on the all-ones 4 x 4 field, compute_spectrum followed
by radial_mean puts 256 at bin 0, not 16: the unnormalized DC coefficient is
the sum 16 of the samples, and the power spectrum squares it. -/
theorem ones44_bin0_ne_sixteen :
    (radial_mean (compute_spectrum (FieldND.two (constField2 4 4 1)))).getD 0 0 = 256 ∧
    (256 : ℝ) ≠ 16 := by
  constructor
  · have h : radial_mean (compute_spectrum (FieldND.two (constField2 4 4 1))) =
        [256, 0, 0] := radial_mean_ones44
    rw [h]
    rfl
  · norm_num

/-- C1 amended: on the all-ones 4 x 4 field, compute_spectrum followed by
radial_mean yields the radial profile [256, 0, 0]: the bin-0 entry is
256 = 16^2, the squared DC sum, and the entries at every other bin are 0. -/
theorem ones44_profile :
    radial_mean (compute_spectrum (FieldND.two (constField2 4 4 1))) = [256, 0, 0] :=
  radial_mean_ones44

end

end MPASPrec
